import Mathlib

/-!
Verification of the task-queue manager in src/main.go.

The embedding mirrors the Go source:
* `time.Time` values are modelled as integers ordered like `Time.Before`;
  the Go zero time (unset `CompletedAt`) is `0`.
* Go `int` is modelled as `Int`; the tool's arithmetic (id counters, minute
  sums) stays far from 64-bit overflow, which is out of scope here.
* `formatDuration` takes `Nat` because the spec declares negative input
  undefined behaviour.
* A command that prints an error and calls `os.Exit(1)` before `saveTasks`
  is modelled as returning `Except.error`: the collection is not mutated and
  nothing is persisted.  `Except.ok tl` means the command succeeded and `tl`
  is both the final in-memory collection and the persisted contents (the
  file always receives exactly the collection after `saveTasks`, i.e. after
  `updateQueuePositions`).
* `sort.Slice` sorts by the strict comparator `less`; Go documents the
  result as a permutation ordered by `less` with no stability guarantee.
  It is modelled by `List.insertionSort` over the reflexive totalisation
  `pendLE` of that comparator (`pendLE a b ↔ ¬ less b a`), which produces
  such a sorted permutation.
-/

namespace TaskQueue

/-- Go struct `Task` (src/main.go lines 17-27). -/
structure Task where
  ID : Int
  Description : String
  Requester : String
  CreatedAt : Int
  CompletedAt : Int
  EstimatedDuration : Int
  Priority : Int
  Status : String
  Position : Int
  deriving DecidableEq, Repr

/-- Go struct `TaskList` (src/main.go lines 30-33). -/
structure TaskList where
  Tasks : List Task
  NextID : Int
  deriving DecidableEq, Repr

/-- Transcription of `formatDuration` (src/main.go lines 138-163). -/
def formatDuration (minutes : Nat) : String :=
  if minutes < 60 then
    toString minutes ++ " minutes"
  else if minutes < 1440 then
    let hours := minutes / 60
    let mins := minutes % 60
    if mins = 0 then
      toString hours ++ " hours"
    else
      toString hours ++ " hours, " ++ toString mins ++ " minutes"
  else
    let days := minutes / 1440
    let remainingMinutes := minutes % 1440
    let hours := remainingMinutes / 60
    let mins := remainingMinutes % 60
    let result := toString days ++ " days"
    let result := if hours > 0 then result ++ ", " ++ toString hours ++ " hours" else result
    let result := if mins > 0 then result ++ ", " ++ toString mins ++ " minutes" else result
    result

/-- Comma-join of display parts; renders the spec's phrase "comma-joined". -/
def joinParts : List String → String
  | [] => ""
  | [p] => p
  | p :: ps => p ++ ", " ++ joinParts ps

/-- Modelled from the spec's words for the duration formatter (section 4.3):
under 60 minutes "N minutes"; under a day, hours and (if nonzero) minutes;
otherwise days, plus nonzero hours, plus nonzero minutes, comma-joined. -/
def formatDurationSpec (minutes : Nat) : String :=
  if minutes < 60 then
    joinParts [toString minutes ++ " minutes"]
  else if minutes < 1440 then
    joinParts ([toString (minutes / 60) ++ " hours"] ++
      (if minutes % 60 ≠ 0 then [toString (minutes % 60) ++ " minutes"] else []))
  else
    joinParts ([toString (minutes / 1440) ++ " days"] ++
      (if minutes % 1440 / 60 ≠ 0 then [toString (minutes % 1440 / 60) ++ " hours"] else []) ++
      (if minutes % 1440 % 60 ≠ 0 then [toString (minutes % 1440 % 60) ++ " minutes"] else []))

/-- The strict comparator passed to `sort.Slice` in `updateQueuePositions`
(src/main.go lines 106-111): lower `Priority` number first, ties broken by
earlier `CreatedAt`. -/
def pendLess (a b : Task) : Prop :=
  a.Priority < b.Priority ∨ (a.Priority = b.Priority ∧ a.CreatedAt < b.CreatedAt)

/-- Reflexive totalisation of `pendLess`: `pendLE a b ↔ ¬ pendLess b a`.
`sort.Slice` guarantees its output is a permutation ordered this way. -/
def pendLE (a b : Task) : Prop :=
  a.Priority < b.Priority ∨ (a.Priority = b.Priority ∧ a.CreatedAt ≤ b.CreatedAt)

instance : DecidableRel pendLE := fun a b => by unfold pendLE; exact inferInstance

instance : IsTotal Task pendLE := ⟨by intro a b; unfold pendLE; omega⟩

instance : IsTrans Task pendLE := ⟨by intro a b c; unfold pendLE; omega⟩

/-- The `sort.Slice(pendingTasks, ...)` call (lines 106-111), modelled as a
sort by `pendLE` (a sorted permutation; Go promises no stability). -/
def sortPending (l : List Task) : List Task := List.insertionSort pendLE l

/-- The inner write-back loop of `updateQueuePositions` (lines 115-120): set
the `Position` of the first task carrying the given id, then break. -/
def setPos (id pos : Int) : List Task → List Task
  | [] => []
  | x :: xs => if x.ID = id then { x with Position := pos } :: xs else x :: setPos id pos xs

/-- The outer write-back loop (lines 113-121): the `i`-th sorted pending task
gets position `i + 1`; called with `k = 1`. -/
def assignPositions (k : Int) : List Task → List Task → List Task
  | [], ts => ts
  | s :: ss, ts => assignPositions (k + 1) ss (setPos s.ID k ts)

/-- The pending-selection test `task.Status == "pending"` (line 100). -/
def isPending (t : Task) : Bool := t.Status == "pending"

/-- Transcription of `updateQueuePositions` (src/main.go lines 95-122). -/
def updateQueuePositions (tl : TaskList) : TaskList :=
  { tl with Tasks := assignPositions 1 (sortPending (tl.Tasks.filter isPending)) tl.Tasks }

/-- Transcription of `calculateEstimatedWaitTime` (src/main.go lines 125-135). -/
def calculateEstimatedWaitTime (tl : TaskList) (position : Int) : Int :=
  tl.Tasks.foldl
    (fun w t => if t.Status = "pending" ∧ t.Position < position then w + t.EstimatedDuration else w)
    0

/-- Net state effect of `saveTasks` (lines 79-92): recompute positions, then
write the whole collection to the file (I/O is the identity on the state). -/
def saveTasks (tl : TaskList) : TaskList := updateQueuePositions tl

/-- The two user-visible failure kinds of section 7 of the spec: `notFound`
for an id matching no task, `invalidInput` for a rejected argument. -/
inductive CmdError
  | invalidInput
  | notFound
  deriving DecidableEq, Repr

/-- The find-first-and-mutate loop shared by complete/start/estimate
(e.g. lines 271-279): mutate the first task carrying the id, then break. -/
def updateFirst (id : Int) (f : Task → Task) : List Task → List Task
  | [] => []
  | x :: xs => if x.ID = id then f x :: xs else x :: updateFirst id f xs

/-- The splice `append(Tasks[:i], Tasks[i+1:]...)` at the first index whose
task carries the id (removeCmd, lines 372-387). -/
def removeFirst (id : Int) : List Task → List Task
  | [] => []
  | x :: xs => if x.ID = id then xs else x :: removeFirst id xs

/-- Whether some task carries the id (the `taskFound` flag of the loops). -/
def hasTask (tl : TaskList) (id : Int) : Bool := tl.Tasks.any (fun t => t.ID == id)

/-- `find?`-style lookup by id, mirroring the first-match loops. -/
def findTask (tl : TaskList) (id : Int) : Option Task :=
  tl.Tasks.find? (fun t => t.ID == id)

/-- The guarded priority assignment of `addCmd` (src/main.go lines 184-187);
`none` models a non-numeric string: values outside 1..5 keep the default 3. -/
def parsePriority (arg : Option Int) : Int :=
  match arg with
  | some p => if 1 ≤ p ∧ p ≤ 5 then p else 3
  | none => 3

/-- The guarded duration assignment of lines 189-192 (`none` models a
non-numeric string): values not strictly positive keep the default 30. -/
def parseDuration (arg : Option Int) : Int :=
  match arg with
  | some d => if 0 < d then d else 30
  | none => 30

/-- Transcription of `addCmd`'s Run (src/main.go lines 177-223): build the
task with status pending, creation time `now`, id `NextID`; append; bump
`NextID`; save.  The command never fails. -/
def addCmd (description requester : String) (priorityArg durationArg : Option Int)
    (now : Int) (tl : TaskList) : Except CmdError TaskList :=
  let task : Task :=
    { ID := tl.NextID, Description := description, Requester := requester,
      CreatedAt := now, CompletedAt := 0, EstimatedDuration := parseDuration durationArg,
      Priority := parsePriority priorityArg, Status := "pending", Position := 0 }
  .ok (saveTasks { Tasks := tl.Tasks ++ [task], NextID := tl.NextID + 1 })

/-- Transcription of `completeCmd`'s Run (src/main.go lines 263-287): mark the
first task carrying the id completed with timestamp `now`; exit 1 without
saving when the id matches no task. -/
def completeCmd (id now : Int) (tl : TaskList) : Except CmdError TaskList :=
  if hasTask tl id then
    .ok (saveTasks { tl with
      Tasks := updateFirst id (fun t => { t with Status := "completed", CompletedAt := now }) tl.Tasks })
  else
    .error .notFound

/-- Transcription of `startCmd`'s Run (src/main.go lines 294-317): set the
first task carrying the id to "in_progress" (nothing else is touched); exit 1
without saving when the id matches no task. -/
def startCmd (id : Int) (tl : TaskList) : Except CmdError TaskList :=
  if hasTask tl id then
    .ok (saveTasks { tl with
      Tasks := updateFirst id (fun t => { t with Status := "in_progress" }) tl.Tasks })
  else
    .error .notFound

/-- Transcription of `estimateCmd`'s Run (src/main.go lines 324-353): a
non-positive (or, at the string level, non-numeric) duration is rejected
before the lookup; then the first task carrying the id gets the new duration;
a missing id exits 1 without saving. -/
def estimateCmd (id duration : Int) (tl : TaskList) : Except CmdError TaskList :=
  if duration ≤ 0 then
    .error .invalidInput
  else if hasTask tl id then
    .ok (saveTasks { tl with
      Tasks := updateFirst id (fun t => { t with EstimatedDuration := duration }) tl.Tasks })
  else
    .error .notFound

/-- Transcription of `removeCmd`'s Run (src/main.go lines 361-392): splice out
the first task carrying the id; a missing id exits 1 without saving. -/
def removeCmd (id : Int) (tl : TaskList) : Except CmdError TaskList :=
  if hasTask tl id then
    .ok (saveTasks { tl with Tasks := removeFirst id tl.Tasks })
  else
    .error .notFound

/-- The per-task loop of `queueInfoCmd`'s queue section (src/main.go lines
427-436): iterating the collection in order, emit for every pending task its
stored position and `calculateEstimatedWaitTime` at that position. -/
def listingAux (tl : TaskList) : List Task → List (Int × Int)
  | [] => []
  | t :: ts =>
    if t.Status = "pending" then
      (t.Position, calculateEstimatedWaitTime tl t.Position) :: listingAux tl ts
    else
      listingAux tl ts

/-- The rows of the "Current Queue" listing of `queueInfoCmd`, as
(position, wait time) pairs in emission order. -/
def queueListing (tl : TaskList) : List (Int × Int) := listingAux tl tl.Tasks

/-- One CLI invocation (src/main.go lines 441-446 dispatching one command).
`listTasks` and `queueInfo` never call `saveTasks` and mutate nothing. -/
inductive Op
  | add (description requester : String) (priorityArg durationArg : Option Int) (now : Int)
  | complete (id now : Int)
  | start (id : Int)
  | estimate (id duration : Int)
  | remove (id : Int)
  | listTasks (statusFilter : String)
  | queueInfo

/-- Dispatch of one invocation to its command. -/
def applyCmd : Op → TaskList → Except CmdError TaskList
  | .add d r p du now, tl => addCmd d r p du now tl
  | .complete id now, tl => completeCmd id now tl
  | .start id, tl => startCmd id tl
  | .estimate id d, tl => estimateCmd id d tl
  | .remove id, tl => removeCmd id tl
  | .listTasks _, tl => .ok tl
  | .queueInfo, tl => .ok tl

/-- The persisted state after one invocation: a failing command exits before
`saveTasks`, so the stored collection is unchanged. -/
def applyOp (op : Op) (tl : TaskList) : TaskList :=
  match applyCmd op tl with
  | .ok tl' => tl'
  | .error _ => tl

/-- The fresh store written by `loadTasks` when no file exists
(src/main.go lines 57-64). -/
def initialTaskList : TaskList := { Tasks := [], NextID := 1 }

/-- The state after a sequence of invocations starting from a fresh store. -/
def runOps (ops : List Op) : TaskList :=
  ops.foldl (fun tl op => applyOp op tl) initialTaskList

/-- The data-model invariant of spec section 3: identifiers are unique. -/
def NodupIDs (l : List Task) : Prop := (l.map Task.ID).Nodup

instance (l : List Task) : Decidable (NodupIDs l) := by
  unfold NodupIDs
  exact List.nodupDecidable _

/-- Agreement on every field except `Position`. -/
def sameExceptPosition (a b : Task) : Prop :=
  b.ID = a.ID ∧ b.Description = a.Description ∧ b.Requester = a.Requester ∧
  b.CreatedAt = a.CreatedAt ∧ b.CompletedAt = a.CompletedAt ∧
  b.EstimatedDuration = a.EstimatedDuration ∧ b.Priority = a.Priority ∧ b.Status = a.Status

/-- Index of the first entry carrying the id, mirroring the id search of the
write-back loop. -/
def rankOf (id : Int) : List Task → Option Nat
  | [] => none
  | s :: ss => if s.ID = id then some 0 else (rankOf id ss).map (· + 1)

/-- Pointwise description of the write-back: a task whose id occurs in the
sorted pending list at index `i` gets position `k + i`, others are kept. -/
def posUpd (k : Int) (s : List Task) (x : Task) : Task :=
  match rankOf x.ID s with
  | some i => { x with Position := k + (i : Int) }
  | none => x

/-- The sorted pending slice built inside `updateQueuePositions`. -/
def sortedOf (tl : TaskList) : List Task := sortPending (tl.Tasks.filter isPending)

/-- Fixture: a pending low-priority task. -/
def exA : Task := ⟨1, "write report", "", 1, 0, 10, 3, "pending", 0⟩

/-- Fixture: a pending high-priority task added later. -/
def exB : Task := ⟨2, "fix bug", "", 2, 0, 20, 1, "pending", 0⟩

/-- Fixture: a completed task with a stale position. -/
def exC : Task := ⟨3, "deploy", "", 3, 7, 40, 2, "completed", 9⟩

/-- Fixture collection: two pending tasks (ids 1, 2) and a completed one. -/
def ex4 : TaskList := ⟨[exA, exB, exC], 4⟩

/-- The inductive invariant behind spec section 3: ids are unique, the
counter is at least 1, and every stored id is in 1..NextID-1. -/
def invHolds (tl : TaskList) : Prop :=
  NodupIDs tl.Tasks ∧ 1 ≤ tl.NextID ∧ ∀ i ∈ tl.Tasks.map Task.ID, 1 ≤ i ∧ i < tl.NextID

theorem append_hours_comma (x : String) : " hours" ++ (", " ++ x) = " hours, " ++ x := by
  rw [← String.append_assoc]; rfl

theorem append_days_comma (x : String) : " days" ++ (", " ++ x) = " days, " ++ x := by
  rw [← String.append_assoc]; rfl

/-- C6: `formatDuration` produces "N minutes" below one hour, hours with
minutes omitted when zero below one day, and otherwise days plus nonzero
hours plus nonzero minutes, comma-joined; with the five concrete example
values of the spec. -/
theorem formatDuration_matches_spec :
    (∀ m : Nat, formatDuration m = formatDurationSpec m) ∧
    formatDuration 45 = "45 minutes" ∧
    formatDuration 90 = "1 hours, 30 minutes" ∧
    formatDuration 120 = "2 hours" ∧
    formatDuration 1500 = "1 days, 1 hours" ∧
    formatDuration 2880 = "2 days" := by
  refine ⟨?_, by decide, by decide, by decide, by decide, by decide⟩
  intro m
  unfold formatDuration formatDurationSpec
  by_cases h60 : m < 60
  · simp [h60, joinParts]
  · simp only [h60, if_false]
    by_cases h1440 : m < 1440
    · simp only [h1440, if_true]
      by_cases hmins : m % 60 = 0
      · simp [hmins, joinParts]
      · simp [hmins, joinParts, String.append_assoc, append_hours_comma]
    · simp only [h1440, if_false]
      by_cases hh : m % 1440 / 60 > 0
      · by_cases hm : m % 1440 % 60 > 0
        · simp [hh, hm, Nat.pos_iff_ne_zero.mp hh, Nat.pos_iff_ne_zero.mp hm, joinParts,
            String.append_assoc, append_hours_comma, append_days_comma]
        · simp [hh, hm, Nat.pos_iff_ne_zero.mp hh, Nat.eq_zero_of_not_pos hm, joinParts,
            String.append_assoc, append_hours_comma, append_days_comma]
      · by_cases hm : m % 1440 % 60 > 0
        · simp [hh, hm, Nat.eq_zero_of_not_pos hh, Nat.pos_iff_ne_zero.mp hm, joinParts,
            String.append_assoc, append_hours_comma, append_days_comma]
        · simp [hh, hm, Nat.eq_zero_of_not_pos hh, Nat.eq_zero_of_not_pos hm, joinParts]

theorem sep_refl (a : Task) : sameExceptPosition a a :=
  ⟨rfl, rfl, rfl, rfl, rfl, rfl, rfl, rfl⟩

theorem sep_setField (x : Task) (p : Int) : sameExceptPosition x { x with Position := p } := by
  refine ⟨?_, ?_, ?_, ?_, ?_, ?_, ?_, ?_⟩ <;> rfl

theorem sep_trans {a b c : Task} (h₁ : sameExceptPosition a b) (h₂ : sameExceptPosition b c) :
    sameExceptPosition a c := by
  obtain ⟨e1, e2, e3, e4, e5, e6, e7, e8⟩ := h₁
  obtain ⟨f1, f2, f3, f4, f5, f6, f7, f8⟩ := h₂
  exact ⟨f1.trans e1, f2.trans e2, f3.trans e3, f4.trans e4, f5.trans e5,
    f6.trans e6, f7.trans e7, f8.trans e8⟩

theorem forall2_sep_trans : ∀ {l₁ l₂ l₃ : List Task},
    List.Forall₂ sameExceptPosition l₁ l₂ → List.Forall₂ sameExceptPosition l₂ l₃ →
    List.Forall₂ sameExceptPosition l₁ l₃ := by
  intro l₁ l₂ l₃ h₁ h₂
  induction h₁ generalizing l₃ with
  | nil => cases h₂; exact List.Forall₂.nil
  | cons hab htl ih =>
    cases h₂ with
    | cons hbc htl₂ => exact List.Forall₂.cons (sep_trans hab hbc) (ih htl₂)

theorem forall2_sep_setPos (id p : Int) : ∀ l : List Task,
    List.Forall₂ sameExceptPosition l (setPos id p l) := by
  intro l
  induction l with
  | nil => exact List.Forall₂.nil
  | cons x xs ih =>
    by_cases h : x.ID = id
    · simp only [setPos]
      rw [if_pos h]
      exact List.Forall₂.cons (sep_setField x p) (List.forall₂_same.mpr (fun y _ => sep_refl y))
    · simp only [setPos]
      rw [if_neg h]
      exact List.Forall₂.cons (sep_refl x) ih

theorem forall2_sep_assign : ∀ (ss : List Task) (k : Int) (ts : List Task),
    List.Forall₂ sameExceptPosition ts (assignPositions k ss ts) := by
  intro ss
  induction ss with
  | nil => intro k ts; exact List.forall₂_same.mpr (fun y _ => sep_refl y)
  | cons s ss ih =>
    intro k ts
    exact forall2_sep_trans (forall2_sep_setPos s.ID k ts) (ih (k + 1) (setPos s.ID k ts))

theorem forall2_sep_update (tl : TaskList) :
    List.Forall₂ sameExceptPosition tl.Tasks (updateQueuePositions tl).Tasks :=
  forall2_sep_assign _ 1 tl.Tasks

theorem forall2_sep_map_ID : ∀ {l l' : List Task},
    List.Forall₂ sameExceptPosition l l' → l'.map Task.ID = l.map Task.ID := by
  intro l l' h
  induction h with
  | nil => rfl
  | cons hab _ ih => simp only [List.map_cons, ih, hab.1]

theorem ids_update (tl : TaskList) :
    (updateQueuePositions tl).Tasks.map Task.ID = tl.Tasks.map Task.ID :=
  forall2_sep_map_ID (forall2_sep_update tl)

theorem posUpd_some {k : Int} {s : List Task} {x : Task} {i : Nat}
    (h : rankOf x.ID s = some i) : posUpd k s x = { x with Position := k + (i : Int) } := by
  unfold posUpd
  rw [h]

theorem posUpd_none {k : Int} {s : List Task} {x : Task}
    (h : rankOf x.ID s = none) : posUpd k s x = x := by
  unfold posUpd
  rw [h]

theorem rankOf_eq_none {id : Int} : ∀ {l : List Task}, id ∉ l.map Task.ID →
    rankOf id l = none := by
  intro l
  induction l with
  | nil => intro _; rfl
  | cons x xs ih =>
    intro h
    simp only [List.map_cons, List.mem_cons, not_or] at h
    simp only [rankOf]
    rw [if_neg (fun he : x.ID = id => h.1 he.symm), ih h.2]
    rfl

theorem posUpd_of_not_mem {k : Int} {s : List Task} {x : Task}
    (h : x.ID ∉ s.map Task.ID) : posUpd k s x = x :=
  posUpd_none (rankOf_eq_none h)

theorem posUpd_ID (k : Int) (s : List Task) (x : Task) : (posUpd k s x).ID = x.ID := by
  unfold posUpd; cases rankOf x.ID s <;> rfl

theorem posUpd_Status (k : Int) (s : List Task) (x : Task) :
    (posUpd k s x).Status = x.Status := by
  unfold posUpd; cases rankOf x.ID s <;> rfl

theorem posUpd_Priority (k : Int) (s : List Task) (x : Task) :
    (posUpd k s x).Priority = x.Priority := by
  unfold posUpd; cases rankOf x.ID s <;> rfl

theorem posUpd_CreatedAt (k : Int) (s : List Task) (x : Task) :
    (posUpd k s x).CreatedAt = x.CreatedAt := by
  unfold posUpd; cases rankOf x.ID s <;> rfl

theorem map_fix_of_not_mem {id p : Int} : ∀ {l : List Task}, (∀ x ∈ l, x.ID ≠ id) →
    l.map (fun x => if x.ID = id then { x with Position := p } else x) = l := by
  intro l
  induction l with
  | nil => intro _; rfl
  | cons x xs ih =>
    intro h
    simp only [List.map_cons, if_neg (h x (List.mem_cons_self x xs)), List.cons.injEq]
    exact ⟨trivial, ih (fun y hy => h y (List.mem_cons_of_mem x hy))⟩

theorem setPos_eq_map {id p : Int} : ∀ {l : List Task}, NodupIDs l →
    setPos id p l = l.map (fun x => if x.ID = id then { x with Position := p } else x) := by
  intro l
  induction l with
  | nil => intro _; rfl
  | cons x xs ih =>
    intro h
    unfold NodupIDs at h
    simp only [List.map_cons, List.nodup_cons] at h
    by_cases hx : x.ID = id
    · simp only [setPos, List.map_cons]
      rw [if_pos hx, if_pos hx, map_fix_of_not_mem]
      intro y hy hyid
      exact h.1 (hx ▸ hyid ▸ List.mem_map_of_mem Task.ID hy)
    · simp only [setPos, List.map_cons]
      rw [if_neg hx, if_neg hx, ih h.2]

theorem map_ID_idpres {f : Task → Task} (hf : ∀ x, (f x).ID = x.ID) (l : List Task) :
    (l.map f).map Task.ID = l.map Task.ID := by
  rw [List.map_map]
  exact List.map_congr_left (fun x _ => hf x)

theorem assign_eq_map : ∀ (ss : List Task) (k : Int) (ts : List Task), NodupIDs ts → NodupIDs ss →
    assignPositions k ss ts = ts.map (posUpd k ss) := by
  intro ss
  induction ss with
  | nil =>
    intro k ts _ _
    simp only [assignPositions]
    symm
    have h1 : ts.map (posUpd k []) = ts.map (fun x => x) :=
      List.map_congr_left (fun x _ => posUpd_of_not_mem (by simp))
    rw [h1, List.map_id']
  | cons a ss ih =>
    intro k ts hts hss
    have hssids : a.ID ∉ ss.map Task.ID := by
      unfold NodupIDs at hss
      simp only [List.map_cons, List.nodup_cons] at hss
      exact hss.1
    have hss' : NodupIDs ss := by
      unfold NodupIDs at hss ⊢
      simp only [List.map_cons, List.nodup_cons] at hss
      exact hss.2
    simp only [assignPositions]
    rw [setPos_eq_map hts]
    have hts' : NodupIDs (ts.map (fun x => if x.ID = a.ID then { x with Position := k } else x)) := by
      unfold NodupIDs
      rw [map_ID_idpres (fun x => by by_cases h : x.ID = a.ID <;> simp [h]) ts]
      exact hts
    rw [ih (k + 1) _ hts' hss', List.map_map]
    refine List.map_congr_left (fun x _ => ?_)
    by_cases hx : x.ID = a.ID
    · simp only [Function.comp, if_pos hx]
      have h₁ : posUpd (k + 1) ss { x with Position := k } = { x with Position := k } := by
        refine posUpd_none (rankOf_eq_none ?_)
        show x.ID ∉ ss.map Task.ID
        rw [hx]
        exact hssids
      have h₂ : rankOf x.ID (a :: ss) = some 0 := by
        simp only [rankOf]
        rw [if_pos hx.symm]
      rw [h₁, posUpd_some h₂]
      norm_num
    · simp only [Function.comp, if_neg hx]
      have h₂ : rankOf x.ID (a :: ss) = (rankOf x.ID ss).map (· + 1) := by
        simp only [rankOf]
        rw [if_neg (fun he => hx he.symm)]
      cases hr : rankOf x.ID ss with
      | none =>
        rw [posUpd_none hr, posUpd_none (by rw [h₂, hr]; rfl)]
      | some i =>
        rw [posUpd_some hr, posUpd_some (show rankOf x.ID (a :: ss) = some (i + 1) by rw [h₂, hr]; rfl)]
        have : k + 1 + (i : Int) = k + ((i + 1 : Nat) : Int) := by push_cast; ring
        rw [this]

theorem sortPending_perm (l : List Task) : (sortPending l).Perm l :=
  List.perm_insertionSort pendLE l

theorem sortPending_sorted (l : List Task) : List.Sorted pendLE (sortPending l) :=
  List.sorted_insertionSort pendLE l

theorem NodupIDs_filter {l : List Task} (h : NodupIDs l) (p : Task → Bool) :
    NodupIDs (l.filter p) :=
  List.Nodup.sublist (List.Sublist.map Task.ID (List.filter_sublist l)) h

theorem NodupIDs_perm {l l' : List Task} (hp : l.Perm l') (h : NodupIDs l) : NodupIDs l' :=
  (hp.map Task.ID).nodup_iff.mp h

theorem NodupIDs_sortedOf {tl : TaskList} (h : NodupIDs tl.Tasks) : NodupIDs (sortedOf tl) :=
  NodupIDs_perm (sortPending_perm _).symm (NodupIDs_filter h isPending)

theorem update_char {tl : TaskList} (h : NodupIDs tl.Tasks) :
    (updateQueuePositions tl).Tasks = tl.Tasks.map (posUpd 1 (sortedOf tl)) :=
  assign_eq_map (sortedOf tl) 1 tl.Tasks h (NodupIDs_sortedOf h)

theorem mem_ID_unique {l : List Task} (h : NodupIDs l) {x y : Task} (hx : x ∈ l) (hy : y ∈ l)
    (hid : x.ID = y.ID) : x = y :=
  List.inj_on_of_nodup_map h hx hy hid

theorem rankOf_of_mem {s : List Task} {x : Task} (hx : x ∈ s) :
    ∃ i, rankOf x.ID s = some i := by
  induction s with
  | nil => cases hx
  | cons a ss ih =>
    by_cases h : a.ID = x.ID
    · exact ⟨0, by simp only [rankOf]; rw [if_pos h]⟩
    · have hx' : x ∈ ss := by
        cases List.mem_cons.mp hx with
        | inl he => exact absurd (he ▸ rfl) h
        | inr hm => exact hm
      obtain ⟨i, hi⟩ := ih hx'
      exact ⟨i + 1, by simp only [rankOf]; rw [if_neg h, hi]; rfl⟩

theorem rankOf_get : ∀ {s : List Task} {id : Int} {i : Nat}, rankOf id s = some i →
    ∃ h : i < s.length, (s.get ⟨i, h⟩).ID = id := by
  intro s
  induction s with
  | nil => intro id i h; simp [rankOf] at h
  | cons a ss ih =>
    intro id i h
    by_cases ha : a.ID = id
    · simp only [rankOf] at h
      rw [if_pos ha] at h
      injection h with h'
      subst h'
      exact ⟨Nat.succ_pos _, ha⟩
    · simp only [rankOf] at h
      rw [if_neg ha] at h
      cases hr : rankOf id ss with
      | none => rw [hr] at h; cases h
      | some j =>
        rw [hr] at h
        injection h with h'
        subst h'
        obtain ⟨hlt, hid⟩ := ih hr
        exact ⟨Nat.succ_lt_succ hlt, hid⟩

theorem rank_get_self {s : List Task} (hN : NodupIDs s) {x : Task} (hx : x ∈ s) :
    ∃ i, rankOf x.ID s = some i ∧ ∃ hlt : i < s.length, s.get ⟨i, hlt⟩ = x := by
  obtain ⟨i, hi⟩ := rankOf_of_mem hx
  obtain ⟨hlt, hid⟩ := rankOf_get hi
  exact ⟨i, hi, hlt, mem_ID_unique hN (s.get_mem _ _) hx hid⟩

theorem posUpd_cons_ne {k : Int} {a : Task} {ss : List Task} {x : Task} (hx : x.ID ≠ a.ID) :
    posUpd k (a :: ss) x = posUpd (k + 1) ss x := by
  have h₂ : rankOf x.ID (a :: ss) = (rankOf x.ID ss).map (· + 1) := by
    simp only [rankOf]
    rw [if_neg (fun he => hx he.symm)]
  cases hr : rankOf x.ID ss with
  | none => rw [posUpd_none (by rw [h₂, hr]; rfl), posUpd_none hr]
  | some i =>
    rw [posUpd_some (show rankOf x.ID (a :: ss) = some (i + 1) by rw [h₂, hr]; rfl),
      posUpd_some hr]
    have hc : k + ((i + 1 : Nat) : Int) = k + 1 + (i : Int) := by push_cast; ring
    rw [hc]

theorem posUpd_self_positions : ∀ {s : List Task}, NodupIDs s → ∀ k : Int,
    s.map (fun x => (posUpd k s x).Position)
      = (List.range s.length).map (fun (i : Nat) => k + (i : Int)) := by
  intro s
  induction s with
  | nil => intro _ k; rfl
  | cons a ss ih =>
    intro hN k
    have hids : a.ID ∉ ss.map Task.ID := by
      unfold NodupIDs at hN
      simp only [List.map_cons, List.nodup_cons] at hN
      exact hN.1
    have hN' : NodupIDs ss := by
      unfold NodupIDs at hN ⊢
      simp only [List.map_cons, List.nodup_cons] at hN
      exact hN.2
    simp only [List.map_cons, List.length_cons, List.range_succ_eq_map, List.map_map]
    have hhead : (posUpd k (a :: ss) a).Position = k + ((0 : Nat) : Int) := by
      rw [posUpd_some (show rankOf a.ID (a :: ss) = some 0 by simp [rankOf])]
    rw [hhead]
    refine congrArg (fun z => (k + ((0 : Nat) : Int)) :: z) ?_
    have htail : ss.map (fun x => (posUpd k (a :: ss) x).Position)
        = ss.map (fun x => (posUpd (k + 1) ss x).Position) := by
      refine List.map_congr_left (fun x hx => ?_)
      have : x.ID ≠ a.ID := fun he => hids (he ▸ List.mem_map_of_mem Task.ID hx)
      rw [posUpd_cons_ne this]
    rw [htail, ih hN' (k + 1)]
    refine List.map_congr_left (fun i _ => ?_)
    simp only [Function.comp]
    push_cast
    ring

theorem mem_sortedOf_of_pending {tl : TaskList} {x : Task} (hx : x ∈ tl.Tasks)
    (hp : x.Status = "pending") : x ∈ sortedOf tl :=
  (sortPending_perm _).mem_iff.mpr (List.mem_filter.mpr ⟨hx, by simp [isPending, hp]⟩)

theorem posUpd_nonpending {tl : TaskList} (hN : NodupIDs tl.Tasks) {x : Task} (hx : x ∈ tl.Tasks)
    (hs : x.Status ≠ "pending") (k : Int) : posUpd k (sortedOf tl) x = x := by
  refine posUpd_of_not_mem ?_
  intro hmem
  obtain ⟨y, hy, hyid⟩ := List.mem_map.mp hmem
  have hy' : y ∈ tl.Tasks.filter isPending := (sortPending_perm _).subset hy
  have hyt : y ∈ tl.Tasks := (List.mem_filter.mp hy').1
  have hpend : y.Status = "pending" := by
    have := (List.mem_filter.mp hy').2
    simpa [isPending] using this
  exact hs ((mem_ID_unique hN hyt hx hyid) ▸ hpend)

theorem filter_update {tl : TaskList} (hN : NodupIDs tl.Tasks) :
    (updateQueuePositions tl).Tasks.filter isPending
      = (tl.Tasks.filter isPending).map (posUpd 1 (sortedOf tl)) := by
  rw [update_char hN, List.filter_map]
  congr 1
  refine List.filter_congr (fun x _ => ?_)
  show isPending (posUpd 1 (sortedOf tl) x) = isPending x
  unfold isPending
  rw [posUpd_Status]

/-- C1: with unique ids, after `updateQueuePositions` the pending tasks carry
exactly the positions 1..N (as a permutation, hence contiguous and without
duplicates), a pending task with a smaller position is no later in the
priority-then-creation order, and the position of every non-pending task is
untouched. -/
theorem positioner_contiguous_ordered (tl : TaskList) (hN : NodupIDs tl.Tasks) :
    (((updateQueuePositions tl).Tasks.filter isPending).map Task.Position).Perm
      ((List.range ((updateQueuePositions tl).Tasks.filter isPending).length).map
        (fun (i : Nat) => (i : Int) + 1)) ∧
    (∀ t ∈ (updateQueuePositions tl).Tasks.filter isPending,
      ∀ u ∈ (updateQueuePositions tl).Tasks.filter isPending,
        t.Position < u.Position →
          t.Priority < u.Priority ∨ (t.Priority = u.Priority ∧ t.CreatedAt ≤ u.CreatedAt)) ∧
    List.Forall₂ (fun a b => a.Status ≠ "pending" → b.Position = a.Position)
      tl.Tasks (updateQueuePositions tl).Tasks := by
  have hs : NodupIDs (sortedOf tl) := NodupIDs_sortedOf hN
  have hfu := filter_update hN
  have hperm : (tl.Tasks.filter isPending).Perm (sortedOf tl) := (sortPending_perm _).symm
  refine ⟨?_, ?_, ?_⟩
  · rw [hfu, List.length_map]
    refine List.Perm.trans
      (List.Perm.map Task.Position (List.Perm.map (posUpd 1 (sortedOf tl)) hperm)) ?_
    rw [List.map_map, hperm.length_eq]
    have hcomp : (sortedOf tl).map (Task.Position ∘ posUpd 1 (sortedOf tl))
        = (sortedOf tl).map (fun x => (posUpd 1 (sortedOf tl) x).Position) :=
      List.map_congr_left (fun x _ => rfl)
    rw [hcomp, posUpd_self_positions hs 1]
    have hflip : (List.range (sortedOf tl).length).map (fun (i : Nat) => (1 : Int) + (i : Int))
        = (List.range (sortedOf tl).length).map (fun (i : Nat) => (i : Int) + 1) :=
      List.map_congr_left (fun i _ => by ring)
    rw [hflip]
  · intro t ht u hu hpos
    rw [hfu] at ht hu
    obtain ⟨x, hxf, rfl⟩ := List.mem_map.mp ht
    obtain ⟨y, hyf, rfl⟩ := List.mem_map.mp hu
    have hxs : x ∈ sortedOf tl := hperm.subset hxf
    have hys : y ∈ sortedOf tl := hperm.subset hyf
    obtain ⟨i, hri, hlti, hgi⟩ := rank_get_self hs hxs
    obtain ⟨j, hrj, hltj, hgj⟩ := rank_get_self hs hys
    rw [posUpd_some hri, posUpd_some hrj] at hpos
    have hij : i < j := by
      have hp' : (1 : Int) + (i : Int) < 1 + (j : Int) := hpos
      omega
    have hsorted : List.Sorted pendLE (sortedOf tl) :=
      sortPending_sorted (tl.Tasks.filter isPending)
    have hle : pendLE ((sortedOf tl).get ⟨i, hlti⟩) ((sortedOf tl).get ⟨j, hltj⟩) :=
      List.pairwise_iff_get.mp hsorted ⟨i, hlti⟩ ⟨j, hltj⟩ hij
    rw [hgi, hgj] at hle
    rw [posUpd_some hri, posUpd_some hrj]
    exact hle
  · rw [update_char hN, List.forall₂_map_right_iff]
    refine List.forall₂_same.mpr (fun x hx hst => ?_)
    rw [posUpd_nonpending hN hx hst 1]

/-- Witness for C1 at the concrete fixture collection. -/
theorem positioner_contiguous_ordered_witness :
    NodupIDs ex4.Tasks ∧
    (((updateQueuePositions ex4).Tasks.filter isPending).map Task.Position).Perm
      ((List.range ((updateQueuePositions ex4).Tasks.filter isPending).length).map
        (fun (i : Nat) => (i : Int) + 1)) :=
  ⟨by decide, (positioner_contiguous_ordered ex4 (by decide)).1⟩

/-- C9: with unique ids, a positioner run keeps the next-identifier counter,
keeps the number and order of tasks, keeps every field other than `Position`
of every task, and keeps non-pending tasks entirely unchanged. -/
theorem positioner_frame (tl : TaskList) (hN : NodupIDs tl.Tasks) :
    (updateQueuePositions tl).NextID = tl.NextID ∧
    List.Forall₂ sameExceptPosition tl.Tasks (updateQueuePositions tl).Tasks ∧
    List.Forall₂ (fun a b => a.Status ≠ "pending" → b = a)
      tl.Tasks (updateQueuePositions tl).Tasks := by
  refine ⟨rfl, forall2_sep_update tl, ?_⟩
  rw [update_char hN, List.forall₂_map_right_iff]
  exact List.forall₂_same.mpr (fun x hx hst => posUpd_nonpending hN hx hst 1)

/-- Witness for C9 at the concrete fixture collection. -/
theorem positioner_frame_witness :
    NodupIDs ex4.Tasks ∧ (updateQueuePositions ex4).NextID = ex4.NextID :=
  ⟨by decide, (positioner_frame ex4 (by decide)).1⟩

theorem foldl_wait (p : Int) : ∀ (l : List Task) (a : Int),
    l.foldl
      (fun w t => if t.Status = "pending" ∧ t.Position < p then w + t.EstimatedDuration else w) a
      = a + ((l.filter (fun t => decide (t.Status = "pending" ∧ t.Position < p))).map
          Task.EstimatedDuration).sum := by
  intro l
  induction l with
  | nil => intro a; simp
  | cons x xs ih =>
    intro a
    by_cases hx : x.Status = "pending" ∧ x.Position < p
    · rw [List.foldl_cons, if_pos hx, ih]
      have hf : (x :: xs).filter (fun t => decide (t.Status = "pending" ∧ t.Position < p))
          = x :: xs.filter (fun t => decide (t.Status = "pending" ∧ t.Position < p)) := by
        simp [List.filter_cons, hx]
      rw [hf, List.map_cons, List.sum_cons]
      ring
    · rw [List.foldl_cons, if_neg hx, ih]
      have hf : (x :: xs).filter (fun t => decide (t.Status = "pending" ∧ t.Position < p))
          = xs.filter (fun t => decide (t.Status = "pending" ∧ t.Position < p)) := by
        simp [List.filter_cons, hx]
      rw [hf]

/-- C2: the estimator returns the sum of the estimated durations of the
pending tasks whose position is strictly below the target, 0 when none
qualifies, and (with unique ids, on freshly recomputed positions) 0 for
target position 1. -/
theorem waitTime_sums_earlier_pending :
    (∀ (tl : TaskList) (p : Int),
      calculateEstimatedWaitTime tl p
        = ((tl.Tasks.filter (fun t => decide (t.Status = "pending" ∧ t.Position < p))).map
            Task.EstimatedDuration).sum) ∧
    (∀ (tl : TaskList) (p : Int),
      (∀ t ∈ tl.Tasks, t.Status = "pending" → ¬ t.Position < p) →
      calculateEstimatedWaitTime tl p = 0) ∧
    (∀ tl : TaskList, NodupIDs tl.Tasks →
      calculateEstimatedWaitTime (updateQueuePositions tl) 1 = 0) := by
  have h1 : ∀ (tl : TaskList) (p : Int),
      calculateEstimatedWaitTime tl p
        = ((tl.Tasks.filter (fun t => decide (t.Status = "pending" ∧ t.Position < p))).map
            Task.EstimatedDuration).sum := by
    intro tl p
    unfold calculateEstimatedWaitTime
    rw [foldl_wait, zero_add]
  have h2 : ∀ (tl : TaskList) (p : Int),
      (∀ t ∈ tl.Tasks, t.Status = "pending" → ¬ t.Position < p) →
      calculateEstimatedWaitTime tl p = 0 := by
    intro tl p h
    rw [h1]
    have hf : tl.Tasks.filter (fun t => decide (t.Status = "pending" ∧ t.Position < p)) = [] := by
      refine List.filter_eq_nil_iff.mpr (fun t ht => ?_)
      simp only [decide_eq_true_eq, not_and]
      exact h t ht
    rw [hf]
    rfl
  have h3 : ∀ tl : TaskList, NodupIDs tl.Tasks →
      calculateEstimatedWaitTime (updateQueuePositions tl) 1 = 0 := by
    intro tl hN
    refine h2 _ 1 ?_
    intro t ht hpend
    rw [update_char hN] at ht
    obtain ⟨x, hx, rfl⟩ := List.mem_map.mp ht
    have hpx : x.Status = "pending" := by
      rw [posUpd_Status] at hpend
      exact hpend
    obtain ⟨i, hri⟩ := rankOf_of_mem (mem_sortedOf_of_pending hx hpx)
    rw [posUpd_some hri]
    show ¬ ((1 : Int) + (i : Int) < 1)
    omega
  exact ⟨h1, h2, h3⟩

/-- Witness for C2 at the concrete fixture collection. -/
theorem waitTime_sums_earlier_pending_witness :
    NodupIDs ex4.Tasks ∧ calculateEstimatedWaitTime (updateQueuePositions ex4) 1 = 0 :=
  ⟨by decide, waitTime_sums_earlier_pending.2.2 ex4 (by decide)⟩

theorem hasTask_eq_false {tl : TaskList} {id : Int} (h : ∀ t ∈ tl.Tasks, t.ID ≠ id) :
    hasTask tl id = false := by
  unfold hasTask
  rw [List.any_eq_false]
  intro t ht
  simp only [beq_iff_eq]
  exact h t ht

/-- C3 counterexample: on the empty store, `estimate 1 0` (id 1 matches no
task) reports InvalidInput for the non-positive duration, not NotFound. -/
theorem estimate_missing_id_invalidInput_counterexample :
    estimateCmd 1 0 initialTaskList = Except.error CmdError.invalidInput ∧
    estimateCmd 1 0 initialTaskList ≠ Except.error CmdError.notFound := by
  refine ⟨rfl, fun h => ?_⟩
  rw [show estimateCmd 1 0 initialTaskList = Except.error CmdError.invalidInput from rfl] at h
  injection h with h'
  exact absurd h' (by decide)

/-- C3 (amended): an id matching no task makes complete, start, remove, and
estimate-with-positive-duration report NotFound; estimate with a non-positive
duration instead reports InvalidInput before the lookup.  Each of these
returns `Except.error`, i.e. exits non-zero without mutating or saving the
collection. -/
theorem missing_id_rejected_without_mutation (id now d : Int) (tl : TaskList)
    (h : ∀ t ∈ tl.Tasks, t.ID ≠ id) :
    completeCmd id now tl = Except.error CmdError.notFound ∧
    startCmd id tl = Except.error CmdError.notFound ∧
    (0 < d → estimateCmd id d tl = Except.error CmdError.notFound) ∧
    (d ≤ 0 → estimateCmd id d tl = Except.error CmdError.invalidInput) ∧
    removeCmd id tl = Except.error CmdError.notFound := by
  have hh : hasTask tl id = false := hasTask_eq_false h
  refine ⟨?_, ?_, ?_, ?_, ?_⟩
  · simp [completeCmd, hh]
  · simp [startCmd, hh]
  · intro hd
    have hnle : ¬ d ≤ 0 := by omega
    simp [estimateCmd, hnle, hh]
  · intro hd
    simp [estimateCmd, hd]
  · simp [removeCmd, hh]

/-- Witness for the amended C3 at a concrete missing id. -/
theorem missing_id_rejected_without_mutation_witness :
    completeCmd 9 100 ex4 = Except.error CmdError.notFound ∧
    startCmd 9 ex4 = Except.error CmdError.notFound ∧
    ((0 : Int) < 1 → estimateCmd 9 1 ex4 = Except.error CmdError.notFound) ∧
    ((1 : Int) ≤ 0 → estimateCmd 9 1 ex4 = Except.error CmdError.invalidInput) ∧
    removeCmd 9 ex4 = Except.error CmdError.notFound :=
  missing_id_rejected_without_mutation 9 100 1 ex4 (by decide)

/-- C4 counterexample: on the fixture (low-priority task added before the
high-priority one), the queue listing emits positions [2, 1], which is not
ascending: the loop follows collection order, not queue-position order. -/
theorem queueListing_not_position_sorted_counterexample :
    (queueListing (updateQueuePositions ex4)).map Prod.fst = [2, 1] ∧
    ¬ List.Sorted (· ≤ ·) ((queueListing (updateQueuePositions ex4)).map Prod.fst) := by
  have h1 : (queueListing (updateQueuePositions ex4)).map Prod.fst = [2, 1] := by decide
  refine ⟨h1, ?_⟩
  rw [h1]
  decide

theorem listingAux_eq (tl : TaskList) : ∀ l : List Task,
    listingAux tl l = (l.filter isPending).map
      (fun t => (t.Position, calculateEstimatedWaitTime tl t.Position)) := by
  intro l
  induction l with
  | nil => rfl
  | cons t ts ih =>
    by_cases h : t.Status = "pending"
    · simp [listingAux, List.filter_cons, isPending, h, ih]
    · simp [listingAux, List.filter_cons, isPending, h, ih]

/-- C4 (amended): when pending tasks exist, the queue listing emits exactly
the pending tasks, in collection order (not queue-position order), each with
the wait time computed by `calculateEstimatedWaitTime` at its position, which
equals the duration sum of the pending tasks positioned strictly earlier. -/
theorem queueListing_collection_order (tl : TaskList)
    (h : 0 < (tl.Tasks.filter isPending).length) :
    queueListing tl = (tl.Tasks.filter isPending).map
      (fun t => (t.Position, calculateEstimatedWaitTime tl t.Position)) ∧
    ∀ pr ∈ queueListing tl,
      pr.2 = ((tl.Tasks.filter (fun t => decide (t.Status = "pending" ∧ t.Position < pr.1))).map
        Task.EstimatedDuration).sum := by
  refine ⟨listingAux_eq tl tl.Tasks, ?_⟩
  intro pr hpr
  rw [queueListing, listingAux_eq tl tl.Tasks] at hpr
  obtain ⟨t, _, rfl⟩ := List.mem_map.mp hpr
  show calculateEstimatedWaitTime tl t.Position = _
  unfold calculateEstimatedWaitTime
  rw [foldl_wait, zero_add]

/-- Witness for the amended C4 at the concrete fixture collection. -/
theorem queueListing_collection_order_witness :
    0 < (ex4.Tasks.filter isPending).length ∧
    queueListing ex4 = (ex4.Tasks.filter isPending).map
      (fun t => (t.Position, calculateEstimatedWaitTime ex4 t.Position)) :=
  ⟨by decide, (queueListing_collection_order ex4 (by decide)).1⟩

theorem forall2_sep_getLast : ∀ {l l' : List Task}, List.Forall₂ sameExceptPosition l l' →
    ∀ {a : Task}, l.getLast? = some a → ∃ b, l'.getLast? = some b ∧ sameExceptPosition a b := by
  intro l l' h
  induction h with
  | nil => intro a ha; cases ha
  | @cons x y l₁ l₂ hab htl ih =>
    intro a ha
    cases htl with
    | nil =>
      have hax : a = x := by
        have : some x = some a := ha
        injection this with h'
        exact h'.symm
      exact ⟨y, rfl, hax ▸ hab⟩
    | @cons c d r₁ r₂ hcd hr =>
      rw [List.getLast?_cons_cons] at ha
      obtain ⟨b, hb, hsep⟩ := ih ha
      exact ⟨b, by rw [List.getLast?_cons_cons]; exact hb, hsep⟩

/-- C7: for every add input, add succeeds (never reports an error) and the
appended task carries id `NextID` and status pending; independently of each
other, a priority argument that is non-numeric or outside 1..5 results in the
default priority 3, and a duration argument that is non-numeric or not
strictly positive results in the default duration 30. -/
theorem add_invalid_args_use_defaults (desc req : String) (pArg dArg : Option Int)
    (now : Int) (tl : TaskList) :
    ∃ tl', addCmd desc req pArg dArg now tl = Except.ok tl' ∧
      ∃ t, tl'.Tasks.getLast? = some t ∧ t.ID = tl.NextID ∧ t.Status = "pending" ∧
        ((pArg = none ∨ ∃ p, pArg = some p ∧ (p < 1 ∨ 5 < p)) → t.Priority = 3) ∧
        ((dArg = none ∨ ∃ d, dArg = some d ∧ d ≤ 0) → t.EstimatedDuration = 30) := by
  obtain ⟨t, hlast, hsep⟩ :=
    forall2_sep_getLast
      (forall2_sep_update (TaskList.mk (tl.Tasks ++ [Task.mk tl.NextID desc req now 0 (parseDuration dArg) (parsePriority pArg) "pending" 0]) (tl.NextID + 1)))
      (List.getLast?_concat tl.Tasks)
  refine ⟨saveTasks (TaskList.mk (tl.Tasks ++ [Task.mk tl.NextID desc req now 0 (parseDuration dArg) (parsePriority pArg) "pending" 0]) (tl.NextID + 1)),
    rfl, t, hlast, hsep.1, hsep.2.2.2.2.2.2.2, ?_, ?_⟩
  · intro hp
    have hpv : parsePriority pArg = 3 := by
      rcases hp with h | ⟨p, hps, hout⟩
      · rw [h]
        rfl
      · rw [hps]
        simp only [parsePriority]
        rw [if_neg (by omega)]
    exact hsep.2.2.2.2.2.2.1.trans hpv
  · intro hd
    have hdv : parseDuration dArg = 30 := by
      rcases hd with h | ⟨d, hds, hout⟩
      · rw [h]
        rfl
      · rw [hds]
        simp only [parseDuration]
        rw [if_neg (by omega)]
    exact hsep.2.2.2.2.2.1.trans hdv

/-- Witness for C7: priority 7 (out of range) and duration 0 (not positive)
both fall back to their defaults on the fixture collection. -/
theorem add_invalid_args_use_defaults_witness :
    ∃ tl', addCmd "x" "bob" (some 7) (some 0) 5 ex4 = Except.ok tl' ∧
      ∃ t, tl'.Tasks.getLast? = some t ∧ t.ID = ex4.NextID ∧ t.Status = "pending" ∧
        t.Priority = 3 ∧ t.EstimatedDuration = 30 := by
  obtain ⟨tl', h1, t, h2, h3, h4, h5, h6⟩ :=
    add_invalid_args_use_defaults "x" "bob" (some 7) (some 0) 5 ex4
  exact ⟨tl', h1, t, h2, h3, h4, h5 (Or.inr ⟨7, rfl, by omega⟩), h6 (Or.inr ⟨0, rfl, by omega⟩)⟩

theorem ids_updateFirst {f : Task → Task} (hf : ∀ x, (f x).ID = x.ID) (id : Int) :
    ∀ l : List Task, (updateFirst id f l).map Task.ID = l.map Task.ID := by
  intro l
  induction l with
  | nil => rfl
  | cons x xs ih =>
    by_cases hx : x.ID = id
    · simp only [updateFirst]
      rw [if_pos hx]
      simp only [List.map_cons, hf x]
    · simp only [updateFirst]
      rw [if_neg hx]
      simp only [List.map_cons, ih]

theorem find?_map_idpres {g : Task → Task} (hg : ∀ x, (g x).ID = x.ID) (id : Int) :
    ∀ l : List Task,
      (l.map g).find? (fun u => u.ID == id) = (l.find? (fun u => u.ID == id)).map g := by
  intro l
  induction l with
  | nil => rfl
  | cons x xs ih =>
    by_cases hx : x.ID = id
    · rw [List.map_cons, List.find?_cons_of_pos _ (by simp [hg x, hx]),
        List.find?_cons_of_pos _ (by simp [hx])]
      rfl
    · rw [List.map_cons, List.find?_cons_of_neg _ (by simp [hg x, hx]),
        List.find?_cons_of_neg _ (by simp [hx]), ih]

theorem find?_updateFirst {f : Task → Task} (hf : ∀ x, (f x).ID = x.ID) (id : Int) :
    ∀ {l : List Task} {t : Task}, l.find? (fun u => u.ID == id) = some t →
      (updateFirst id f l).find? (fun u => u.ID == id) = some (f t) := by
  intro l
  induction l with
  | nil => intro t h; cases h
  | cons x xs ih =>
    intro t h
    by_cases hx : x.ID = id
    · rw [List.find?_cons_of_pos _ (by simp [hx])] at h
      injection h with h'
      subst h'
      simp only [updateFirst]
      rw [if_pos hx]
      rw [List.find?_cons_of_pos _ (by simp [hf, hx])]
    · rw [List.find?_cons_of_neg _ (by simp [hx])] at h
      simp only [updateFirst]
      rw [if_neg hx]
      rw [List.find?_cons_of_neg _ (by simp [hx])]
      exact ih h

/-- C10: complete and start succeed for any stored task whatever its current
status; start rewrites only the status (to "in_progress") of the addressed
task — in particular a previously completed task keeps its completion
timestamp and every other field. -/
theorem start_complete_any_status (tl : TaskList) (id now : Int) (t : Task)
    (hN : NodupIDs tl.Tasks) (hf : findTask tl id = some t) :
    (∃ tl₁, startCmd id tl = Except.ok tl₁ ∧
      findTask tl₁ id = some { t with Status := "in_progress" }) ∧
    (∃ tl₂, completeCmd id now tl = Except.ok tl₂) := by
  have hmem : t ∈ tl.Tasks := List.mem_of_find?_eq_some hf
  have hid : t.ID = id := by
    have := List.find?_some hf
    simpa using this
  have hht : hasTask tl id = true := by
    unfold hasTask
    rw [List.any_eq_true]
    exact ⟨t, hmem, by simp [hid]⟩
  have hfpres : ∀ x : Task, ({ x with Status := "in_progress" } : Task).ID = x.ID :=
    fun x => rfl
  constructor
  · refine ⟨saveTasks { tl with
      Tasks := updateFirst id (fun u => { u with Status := "in_progress" }) tl.Tasks },
      by simp [startCmd, hht], ?_⟩
    have hN₁ : NodupIDs (updateFirst id (fun u => { u with Status := "in_progress" }) tl.Tasks) := by
      unfold NodupIDs
      rw [ids_updateFirst hfpres id]
      exact hN
    have hfu : (updateFirst id (fun u => { u with Status := "in_progress" }) tl.Tasks).find?
        (fun u => u.ID == id) = some { t with Status := "in_progress" } :=
      find?_updateFirst hfpres id hf
    have hmem₁ : ({ t with Status := "in_progress" } : Task) ∈
        updateFirst id (fun u => { u with Status := "in_progress" }) tl.Tasks :=
      List.mem_of_find?_eq_some hfu
    show findTask (saveTasks { tl with
      Tasks := updateFirst id (fun u => { u with Status := "in_progress" }) tl.Tasks }) id
      = some { t with Status := "in_progress" }
    unfold findTask saveTasks
    rw [update_char hN₁, find?_map_idpres (posUpd_ID 1 _) id, hfu]
    have hstat : ({ t with Status := "in_progress" } : Task).Status ≠ "pending" := by
      show ("in_progress" : String) ≠ "pending"
      decide
    rw [Option.map_some', @posUpd_nonpending
      { tl with Tasks := updateFirst id (fun u => { u with Status := "in_progress" }) tl.Tasks }
      hN₁ { t with Status := "in_progress" } hmem₁ hstat 1]
  · exact ⟨saveTasks { tl with
      Tasks := updateFirst id
        (fun u => { u with Status := "completed", CompletedAt := now }) tl.Tasks },
      by simp [completeCmd, hht]⟩

/-- Witness for C10: starting the completed fixture task id 3 yields an
in-progress task still carrying completion timestamp 7. -/
theorem start_complete_any_status_witness :
    NodupIDs ex4.Tasks ∧
    (∃ tl₁, startCmd 3 ex4 = Except.ok tl₁ ∧
      findTask tl₁ 3 = some { exC with Status := "in_progress" }) ∧
    (∃ tl₂, completeCmd 3 50 ex4 = Except.ok tl₂) :=
  ⟨by decide, (start_complete_any_status ex4 3 50 exC (by decide) (by decide)).1,
    (start_complete_any_status ex4 3 50 exC (by decide) (by decide)).2⟩

theorem removeFirst_sublist (id : Int) : ∀ l : List Task, (removeFirst id l).Sublist l := by
  intro l
  induction l with
  | nil => exact List.Sublist.refl []
  | cons x xs ih =>
    by_cases hx : x.ID = id
    · simp only [removeFirst]
      rw [if_pos hx]
      exact List.sublist_cons_self x xs
    · simp only [removeFirst]
      rw [if_neg hx]
      exact ih.cons₂ x

theorem invHolds_save {tl : TaskList} (h : invHolds tl) : invHolds (saveTasks tl) := by
  obtain ⟨h1, h2, h3⟩ := h
  unfold saveTasks
  refine ⟨?_, h2, ?_⟩
  · unfold NodupIDs
    rw [ids_update]
    exact h1
  · intro i hi
    rw [ids_update] at hi
    exact h3 i hi

theorem invHolds_updateFirst {tl : TaskList} (f : Task → Task) (hf : ∀ x, (f x).ID = x.ID)
    (id : Int) (h : invHolds tl) :
    invHolds { tl with Tasks := updateFirst id f tl.Tasks } := by
  obtain ⟨h1, h2, h3⟩ := h
  refine ⟨?_, h2, ?_⟩
  · unfold NodupIDs
    rw [ids_updateFirst hf id]
    exact h1
  · intro i hi
    rw [ids_updateFirst hf id] at hi
    exact h3 i hi

theorem invHolds_add {tl : TaskList} (h : invHolds tl) (t : Task) (ht : t.ID = tl.NextID) :
    invHolds { Tasks := tl.Tasks ++ [t], NextID := tl.NextID + 1 } := by
  obtain ⟨h1, h2, h3⟩ := h
  unfold invHolds
  dsimp only
  refine ⟨?_, by omega, ?_⟩
  · unfold NodupIDs
    rw [List.map_append]
    rw [List.nodup_append]
    refine ⟨h1, by simp, ?_⟩
    intro i hi hmem
    simp only [List.map_cons, List.map_nil, List.mem_cons, List.not_mem_nil, or_false] at hmem
    have := (h3 i hi).2
    omega
  · intro i hi
    rw [List.map_append] at hi
    rcases List.mem_append.mp hi with hold | hnew
    · have := h3 i hold
      omega
    · simp only [List.map_cons, List.map_nil, List.mem_cons, List.not_mem_nil, or_false] at hnew
      subst hnew
      omega

theorem invHolds_remove {tl : TaskList} (id : Int) (h : invHolds tl) :
    invHolds { tl with Tasks := removeFirst id tl.Tasks } := by
  obtain ⟨h1, h2, h3⟩ := h
  have hsub : List.Sublist ((removeFirst id tl.Tasks).map Task.ID) (tl.Tasks.map Task.ID) :=
    List.Sublist.map Task.ID (removeFirst_sublist id tl.Tasks)
  exact ⟨List.Nodup.sublist hsub h1, h2, fun i hi => h3 i (hsub.subset hi)⟩

theorem inv_preserved (op : Op) {tl : TaskList} (h : invHolds tl) : invHolds (applyOp op tl) := by
  cases op with
  | add desc req pArg dArg now =>
    exact invHolds_save (invHolds_add h _ rfl)
  | complete id now =>
    by_cases hh : hasTask tl id
    · have : applyOp (Op.complete id now) tl = saveTasks { tl with
        Tasks := updateFirst id
          (fun t => { t with Status := "completed", CompletedAt := now }) tl.Tasks } := by
        simp [applyOp, applyCmd, completeCmd, hh]
      rw [this]
      exact invHolds_save (invHolds_updateFirst
        (fun t => { t with Status := "completed", CompletedAt := now }) (fun x => rfl) id h)
    · have : applyOp (Op.complete id now) tl = tl := by
        simp [applyOp, applyCmd, completeCmd, hh]
      rw [this]
      exact h
  | start id =>
    by_cases hh : hasTask tl id
    · have : applyOp (Op.start id) tl = saveTasks { tl with
        Tasks := updateFirst id (fun t => { t with Status := "in_progress" }) tl.Tasks } := by
        simp [applyOp, applyCmd, startCmd, hh]
      rw [this]
      exact invHolds_save (invHolds_updateFirst
        (fun t => { t with Status := "in_progress" }) (fun x => rfl) id h)
    · have : applyOp (Op.start id) tl = tl := by
        simp [applyOp, applyCmd, startCmd, hh]
      rw [this]
      exact h
  | estimate id d =>
    by_cases hd : d ≤ 0
    · have : applyOp (Op.estimate id d) tl = tl := by
        simp [applyOp, applyCmd, estimateCmd, hd]
      rw [this]
      exact h
    · by_cases hh : hasTask tl id
      · have : applyOp (Op.estimate id d) tl = saveTasks { tl with
          Tasks := updateFirst id (fun t => { t with EstimatedDuration := d }) tl.Tasks } := by
          simp [applyOp, applyCmd, estimateCmd, hd, hh]
        rw [this]
        exact invHolds_save (invHolds_updateFirst
          (fun t => { t with EstimatedDuration := d }) (fun x => rfl) id h)
      · have : applyOp (Op.estimate id d) tl = tl := by
          simp [applyOp, applyCmd, estimateCmd, hd, hh]
        rw [this]
        exact h
  | remove id =>
    by_cases hh : hasTask tl id
    · have : applyOp (Op.remove id) tl = saveTasks { tl with
        Tasks := removeFirst id tl.Tasks } := by
        simp [applyOp, applyCmd, removeCmd, hh]
      rw [this]
      exact invHolds_save (invHolds_remove id h)
    · have : applyOp (Op.remove id) tl = tl := by
        simp [applyOp, applyCmd, removeCmd, hh]
      rw [this]
      exact h
  | listTasks sf => exact h
  | queueInfo => exact h

theorem runOps_inv (ops : List Op) : invHolds (runOps ops) := by
  unfold runOps
  have hgen : ∀ (os : List Op) (tl : TaskList), invHolds tl →
      invHolds (os.foldl (fun tl op => applyOp op tl) tl) := by
    intro os
    induction os with
    | nil => intro tl h; exact h
    | cons op os ih => intro tl h; exact ih _ (inv_preserved op h)
  exact hgen ops initialTaskList ⟨by decide, by decide, by intro i hi; simp [initialTaskList] at hi⟩

theorem applyOp_nextID (op : Op) (tl : TaskList) :
    (applyOp op tl).NextID = tl.NextID ∨ (applyOp op tl).NextID = tl.NextID + 1 := by
  cases op with
  | add desc req pArg dArg now => right; rfl
  | complete id now =>
    left
    by_cases hh : hasTask tl id
    · simp [applyOp, applyCmd, completeCmd, hh, saveTasks, updateQueuePositions]
    · simp [applyOp, applyCmd, completeCmd, hh]
  | start id =>
    left
    by_cases hh : hasTask tl id
    · simp [applyOp, applyCmd, startCmd, hh, saveTasks, updateQueuePositions]
    · simp [applyOp, applyCmd, startCmd, hh]
  | estimate id d =>
    left
    by_cases hd : d ≤ 0
    · simp [applyOp, applyCmd, estimateCmd, hd]
    · by_cases hh : hasTask tl id
      · simp [applyOp, applyCmd, estimateCmd, hd, hh, saveTasks, updateQueuePositions]
      · simp [applyOp, applyCmd, estimateCmd, hd, hh]
  | remove id =>
    left
    by_cases hh : hasTask tl id
    · simp [applyOp, applyCmd, removeCmd, hh, saveTasks, updateQueuePositions]
    · simp [applyOp, applyCmd, removeCmd, hh]
  | listTasks sf => left; rfl
  | queueInfo => left; rfl

theorem applyOp_mono (op : Op) (tl : TaskList) : tl.NextID ≤ (applyOp op tl).NextID := by
  rcases applyOp_nextID op tl with h | h <;> omega

/-- C8: over every sequence of invocations from a fresh store, stored ids are
unique and each lies strictly below the counter; no invocation ever decreases
the counter; and add assigns the appended task the current counter value and
bumps the counter — together: an id, once used, is never assigned again,
even after a remove. -/
theorem ids_unique_never_reused :
    (∀ ops : List Op, NodupIDs (runOps ops).Tasks ∧
      ∀ t ∈ (runOps ops).Tasks, 1 ≤ t.ID ∧ t.ID < (runOps ops).NextID) ∧
    (∀ (op : Op) (tl : TaskList), tl.NextID ≤ (applyOp op tl).NextID) ∧
    (∀ (desc req : String) (pArg dArg : Option Int) (now : Int) (tl : TaskList),
      ∃ tl', addCmd desc req pArg dArg now tl = Except.ok tl' ∧
        tl'.NextID = tl.NextID + 1 ∧
        ∃ t, tl'.Tasks.getLast? = some t ∧ t.ID = tl.NextID) := by
  refine ⟨?_, applyOp_mono, ?_⟩
  · intro ops
    obtain ⟨h1, _, h3⟩ := runOps_inv ops
    exact ⟨h1, fun t ht => h3 t.ID (List.mem_map_of_mem Task.ID ht)⟩
  · intro desc req pArg dArg now tl
    obtain ⟨t, hlast, hsep⟩ :=
      forall2_sep_getLast
        (forall2_sep_update (TaskList.mk (tl.Tasks ++ [Task.mk tl.NextID desc req now 0 (parseDuration dArg) (parsePriority pArg) "pending" 0]) (tl.NextID + 1)))
        (List.getLast?_concat tl.Tasks)
    exact ⟨saveTasks (TaskList.mk (tl.Tasks ++ [Task.mk tl.NextID desc req now 0 (parseDuration dArg) (parsePriority pArg) "pending" 0]) (tl.NextID + 1)), rfl, rfl, t, hlast, hsep.1⟩

end TaskQueue
